import Mathlib

/-!
Verification of the snowflash aggregation/integration core.

Shallow embedding of:
  * `flash2snowglobes/analysis.py`:
      `get_all_channels`, `get_group_counts`, `get_totals`, `get_avg`
  * `snow_data/snow_tools.py`:
      `time_integrate`, `get_cumulative`, `get_channel_fractions`

Numeric values (numpy floats) are modelled as rationals `ℚ`.  A float
division whose denominator is `0` produces no finite number in numpy
(`nan` or `±inf`), so wherever the Python code divides without a zero
guard the embedding returns `Option ℚ`, with `none` standing for the
non-finite result.  Python exceptions (`KeyError` from a missing dict
entry, `ValueError` from an impossible numpy broadcast) are modelled by
`Except PyErr`.
-/

namespace Snowflash

/-- Python exceptions that the embedded code can raise. -/
inductive PyErr where
  /-- `KeyError`: dict lookup of a missing key. -/
  | keyError (key : String)
  /-- `ValueError`: numpy could not broadcast operands together. -/
  | valueError
  deriving DecidableEq, Repr

/-- A Python dict with string keys, in insertion order. -/
abbrev Dict (α : Type) := List (String × α)

/-- Dict lookup `d[k]` as a value: first entry with key `k`. -/
def dictFind : Dict (List ℚ) → String → Option (List ℚ)
  | [], _ => none
  | p :: rest, k => if p.1 = k then some p.2 else dictFind rest k

/-- Dict subscript `d[k]`: raises `KeyError` when the key is absent. -/
def dictGet (d : Dict (List ℚ)) (k : String) : Except PyErr (List ℚ) :=
  match dictFind d k with
  | some v => .ok v
  | none => .error (.keyError k)

/-- `np.zeros(n)`. -/
def npZeros (n : ℕ) : List ℚ := List.replicate n 0

/-- In-place numpy add `a += v` on 1-d arrays: succeeds when the shapes
match, or when `v` has length 1 (numpy broadcasts the single value
across `a`); any other shape cannot be broadcast into `a` and raises
`ValueError`.  The result always keeps the length of `a`. -/
def npIadd (a v : List ℚ) : Except PyErr (List ℚ) :=
  if v.length = a.length then .ok (List.zipWith (· + ·) a v)
  else if v.length = 1 then .ok (a.map (· + v.headI))
  else .error .valueError

/-- analysis.py `get_all_channels`: concatenate the channel lists of all
groups (`channels += subs` per group), in order.  No validation of any
kind is performed. -/
def get_all_channels (groups : List (String × List String)) : List String :=
  groups.foldl (fun channels g => channels ++ g.2) []

/-- Inner loop of `get_group_counts`: `for chan in sub_channels:
counts += channel_counts[chan]`. -/
def sumChannels (channel_counts : Dict (List ℚ)) (counts : List ℚ) :
    List String → Except PyErr (List ℚ)
  | [] => .ok counts
  | chan :: rest => do
      let v ← dictGet channel_counts chan
      let counts' ← npIadd counts v
      sumChannels channel_counts counts' rest

/-- The dict returned by `get_group_counts`: the `'total'` entry plus
one entry per named group, in insertion order. -/
structure GroupCounts where
  total : List ℚ
  groups : Dict (List ℚ)
  deriving DecidableEq, Repr

/-- Outer loop of `get_group_counts`: per group, sum its channels into
`counts`, then `group_counts['total'] += counts;
group_counts[group] = counts`. -/
def groupsLoop (channel_counts : Dict (List ℚ)) (n_bins : ℕ)
    (gc : GroupCounts) :
    List (String × List String) → Except PyErr GroupCounts
  | [] => .ok gc
  | g :: rest => do
      let counts ← sumChannels channel_counts (npZeros n_bins) g.2
      let total' ← npIadd gc.total counts
      groupsLoop channel_counts n_bins
        ⟨total', gc.groups ++ [(g.1, counts)]⟩ rest

/-- analysis.py `get_group_counts`: sum channel counts by group, with a
running `'total'` starting from `np.zeros(n_bins)`. -/
def get_group_counts (channel_counts : Dict (List ℚ))
    (groups : List (String × List String)) (n_bins : ℕ) :
    Except PyErr GroupCounts :=
  groupsLoop channel_counts n_bins ⟨npZeros n_bins, []⟩ groups

/-- analysis.py `get_totals`: `totals[group] = np.sum(group_counts[group])`
for each group of the dict. -/
def get_totals (group_counts : Dict (List ℚ)) : Dict ℚ :=
  (group_counts.map (fun g => (g.1, g.2.sum)) : List (String × ℚ))

/-- Loop body of `get_avg` for one group: `np.sum(counts * energy_bins)
/ total` when `total != 0`, else `0`. -/
def group_avg (counts : List ℚ) (total : ℚ) (energy_bins : List ℚ) : ℚ :=
  if total ≠ 0 then (List.zipWith (· * ·) counts energy_bins).sum / total
  else 0

/-- analysis.py `get_avg`: iterate over `group_totals` and apply the
per-group rule.  In `analyze_output` it is always called with
`group_totals = get_totals(group_counts)` (analysis.py:56-59), so every
key of `group_totals` is present in `group_counts`; the lookup defaults
to `[]` only in the unreachable missing-key case. -/
def get_avg (group_counts : Dict (List ℚ)) (group_totals : Dict ℚ)
    (energy_bins : List ℚ) : Dict ℚ :=
  group_totals.map (fun gt =>
    (gt.1, group_avg ((dictFind group_counts gt.1).getD []) gt.2 energy_bins))

/-!
snow_tools.py.  `time_integrate` operates column-wise on an xarray
dataset whose `time` dimension holds the per-step rows of one model's
timebinned table; for each channel it reads the pair of columns
`counts_<channel>` and `energy_<channel>`.  All operations are
element-wise in the remaining dimensions, so the embedding works on one
such column pair.
-/

/-- One channel's pair of columns from a timebinned table: the per-step
count totals and per-step mean energies, indexed by time row. -/
structure TimebinColumn where
  counts : List ℚ
  energy : List ℚ
  deriving DecidableEq, Repr

/-- snow_tools.py `time_integrate`, counts output for one channel:
`time_slice = tables.isel(time=slice(0, n_bins))` silently clamps to
the available rows, then `totals = time_slice.sum(dim='time')`. -/
def ti_counts (col : TimebinColumn) (n_bins : ℕ) : ℚ :=
  (col.counts.take n_bins).sum

/-- snow_tools.py `time_integrate`, energy output for one channel:
`total_energy = (time_slice[avg] * time_slice[tot]).sum(dim='time')`
then `table[avg] = total_energy / total_counts`.  The division has no
zero guard: when `total_counts` is `0` the float result is non-finite
(`nan`/`inf`), modelled as `none`. -/
def ti_energy (col : TimebinColumn) (n_bins : ℕ) : Option ℚ :=
  let total_counts := (col.counts.take n_bins).sum
  let total_energy :=
    (List.zipWith (· * ·) (col.energy.take n_bins)
      (col.counts.take n_bins)).sum
  if total_counts = 0 then none else some (total_energy / total_counts)

/-- snow_tools.py `get_cumulative` for one channel column: calls
`time_integrate` for every `b` in `np.arange(1, max_n_bins+1)` and
concatenates the results along `time`, so entry `b-1` holds the
integral over the first `b` time bins.  Two error paths follow the
loop: `xr.concat` of an empty sequence (`max_n_bins = 0`) raises
`ValueError`, and the final line
`x.coords['time'] = np.array(timebin_tables['time'])[1:]`
(snow_tools.py:165) assigns a coordinate with one entry per time row
minus one — the row count is `col.counts.length` — to the concat
dimension of size `max_n_bins`, which xarray rejects with `ValueError`
("conflicting sizes") unless `max_n_bins = rows - 1`.  Only
`max_n_bins = rows - 1` (with `rows ≥ 2`) returns a table. -/
def get_cumulative (col : TimebinColumn) (max_n_bins : ℕ) :
    Except PyErr (List (ℚ × Option ℚ)) :=
  if max_n_bins = 0 then .error .valueError
  else if col.counts.length - 1 = max_n_bins then
    .ok ((List.range max_n_bins).map
      (fun i => (ti_counts col (i + 1), ti_energy col (i + 1))))
  else .error .valueError

/-- Float division `c / t`: `none` models the non-finite result
(`nan` or `±inf`) that numpy/pandas produce when `t = 0`. -/
def floatDiv (c t : ℚ) : Option ℚ :=
  if t = 0 then none else some (c / t)

/-- `np.mean` of a float array that may hold non-finite entries: any
`nan`/`inf` entry makes the mean non-finite, and the mean of an empty
array is `nan`; both are modelled as `none`. -/
def npMean (l : List (Option ℚ)) : Option ℚ :=
  if l = [] then none
  else if l.all (fun x => x.isSome) then
    some ((l.map (fun x => x.getD 0)).sum / l.length)
  else none

/-- snow_tools.py `get_channel_fractions`, one model and one channel:
`np.mean(table[f'counts_{channel}'] / table['counts_total'])` — the
element-wise ratio over ALL time rows, then its mean. -/
def get_channel_fractions (counts_channel counts_total : List ℚ) :
    Option ℚ :=
  npMean (List.zipWith floatDiv counts_channel counts_total)

/-!
Specification-side vocabulary used to state the claims.
-/

/-- Element-wise sum of two equal-length vectors. -/
def addVec (a b : List ℚ) : List ℚ := List.zipWith (· + ·) a b

/-- Element-wise sum of a family of `n`-vectors, starting from the zero
vector. -/
def sumVecs (n : ℕ) (vs : List (List ℚ)) : List ℚ :=
  vs.foldl addVec (npZeros n)

/-- Running count over the first `n` rows of a per-step count column,
written as a direct recursion (the spec's "running accumulator"). -/
def runningCount : List ℚ → ℕ → ℚ
  | _, 0 => 0
  | [], _ + 1 => 0
  | c :: cs, n + 1 => c + runningCount cs n

/-- Running energy-weighted sum over the first `n` rows: per row, the
mean energy times the count. -/
def runningEnergySum : List ℚ → List ℚ → ℕ → ℚ
  | _, _, 0 => 0
  | [], _, _ + 1 => 0
  | _ :: _, [], _ + 1 => 0
  | e :: es, c :: cs, n + 1 => e * c + runningEnergySum es cs n

/-- The fraction the spec's §4.6 describes, defined from the spec's
words for comparison with `get_channel_fractions`: the time-average of
`category_count[t] / total_count[t]` over the steps with
`total_count[t] ≠ 0`, and exactly `0` when no such step exists. -/
def spec_channel_fraction (counts_channel counts_total : List ℚ) : ℚ :=
  let ratios := (List.zipWith Prod.mk counts_channel counts_total).filterMap
    (fun p => if p.2 = 0 then none else some (p.1 / p.2))
  if ratios = [] then 0 else ratios.sum / ratios.length

/-! ### Basic lemmas -/

lemma except_bind_ok {ε α β : Type} (a : α) (f : α → Except ε β) :
    (Except.ok a >>= f) = f a := rfl

lemma except_bind_error {ε α β : Type} (e : ε) (f : α → Except ε β) :
    (Except.error e >>= f : Except ε β) = Except.error e := rfl

lemma addVec_length (a b : List ℚ) :
    (addVec a b).length = min a.length b.length := by
  simp [addVec]

lemma addVec_assoc : ∀ a b c : List ℚ,
    addVec (addVec a b) c = addVec a (addVec b c)
  | [], _, _ => rfl
  | _ :: _, [], _ => rfl
  | _ :: _, _ :: _, [] => rfl
  | a :: as, b :: bs, c :: cs => by
      simp only [addVec, List.zipWith_cons_cons] at *
      exact congrArg₂ _ (add_assoc a b c) (addVec_assoc as bs cs)

lemma addVec_zeros_left : ∀ v : List ℚ, addVec (npZeros v.length) v = v
  | [] => rfl
  | x :: xs => by
      simpa [addVec, npZeros, List.replicate_succ] using addVec_zeros_left xs

lemma addVec_zeros_right : ∀ a : List ℚ, addVec a (npZeros a.length) = a
  | [] => rfl
  | x :: xs => by
      simpa [addVec, npZeros, List.replicate_succ] using addVec_zeros_right xs

/-! ### Theorems about the per-step averager (`get_totals` / `get_avg`) -/

/-- **C2.** For every category count array and energy-bin array of equal
length, the per-step average energy computed by `get_avg` (fed, as in
`analyze_output`, the totals from `get_totals`) equals
`sum(counts[i] * energy_bins[i]) / sum(counts)` when `sum(counts) ≠ 0`,
and is exactly `0` when `sum(counts) = 0` — a value, not an error. -/
theorem get_avg_zero_count_policy (g : String) (counts energy_bins : List ℚ)
    (h : counts.length = energy_bins.length) :
    get_avg [(g, counts)] (get_totals [(g, counts)]) energy_bins
      = [(g, if counts.sum = 0 then 0
             else (List.zipWith (· * ·) counts energy_bins).sum / counts.sum)] := by
  by_cases hs : counts.sum = 0 <;>
    simp [get_avg, get_totals, dictFind, group_avg, hs]

/-- Witness for C2: the spec's scenario A, counts `[2,1]` over energy
bins `[10,20]` MeV, gives average `40/3 ≈ 13.33`. -/
theorem get_avg_zero_count_policy_witness :
    get_avg [("IBD", [2, 1])] (get_totals [("IBD", [2, 1])]) [10, 20]
      = [("IBD", (40 : ℚ) / 3)] := by
  rw [get_avg_zero_count_policy "IBD" [2, 1] [10, 20] (by norm_num)]
  norm_num

lemma dot_le_mul_sum : ∀ (c e : List ℚ) (M : ℚ), c.length = e.length →
    (∀ x ∈ c, 0 ≤ x) → (∀ x ∈ e, x ≤ M) →
    (List.zipWith (· * ·) c e).sum ≤ M * c.sum
  | [], [], _, _, _, _ => by simp
  | _ :: _, [], _, h, _, _ => by simp at h
  | [], _ :: _, _, h, _, _ => by simp at h
  | c :: cs, e :: es, M, h, hc, he => by
      simp only [List.zipWith_cons_cons, List.sum_cons]
      have h1 : c * e ≤ c * M :=
        mul_le_mul_of_nonneg_left (he e (by simp)) (hc c (by simp))
      have h2 : (List.zipWith (· * ·) cs es).sum ≤ M * cs.sum :=
        dot_le_mul_sum cs es M (by simpa using h)
          (fun x hx => hc x (by simp [hx])) (fun x hx => he x (by simp [hx]))
      calc c * e + (List.zipWith (· * ·) cs es).sum
          ≤ c * M + M * cs.sum := add_le_add h1 h2
        _ = M * (c + cs.sum) := by ring

lemma mul_sum_le_dot : ∀ (c e : List ℚ) (m : ℚ), c.length = e.length →
    (∀ x ∈ c, 0 ≤ x) → (∀ x ∈ e, m ≤ x) →
    m * c.sum ≤ (List.zipWith (· * ·) c e).sum
  | [], [], _, _, _, _ => by simp
  | _ :: _, [], _, h, _, _ => by simp at h
  | [], _ :: _, _, h, _, _ => by simp at h
  | c :: cs, e :: es, m, h, hc, he => by
      simp only [List.zipWith_cons_cons, List.sum_cons]
      have h1 : c * m ≤ c * e :=
        mul_le_mul_of_nonneg_left (he e (by simp)) (hc c (by simp))
      have h2 : m * cs.sum ≤ (List.zipWith (· * ·) cs es).sum :=
        mul_sum_le_dot cs es m (by simpa using h)
          (fun x hx => hc x (by simp [hx])) (fun x hx => he x (by simp [hx]))
      calc m * (c + cs.sum) = c * m + m * cs.sum := by ring
        _ ≤ c * e + (List.zipWith (· * ·) cs es).sum := add_le_add h1 h2

/-- **C9.** For every count array with all entries `≥ 0` whose sum is
nonzero, and every equally long energy-bin array, the computed average
(`group_avg`, the loop body of `get_avg`, at `total = counts.sum` as
supplied by `get_totals`) lies between any lower bound and any upper
bound of the energy bins — in particular within
`[min(energy_bins), max(energy_bins)]`. -/
theorem group_avg_within_energy_bounds (counts energy_bins : List ℚ) (m M : ℚ)
    (hlen : counts.length = energy_bins.length)
    (hnn : ∀ x ∈ counts, 0 ≤ x) (hs : counts.sum ≠ 0)
    (hm : ∀ x ∈ energy_bins, m ≤ x) (hM : ∀ x ∈ energy_bins, x ≤ M) :
    m ≤ group_avg counts counts.sum energy_bins
      ∧ group_avg counts counts.sum energy_bins ≤ M := by
  have hpos : 0 < counts.sum := lt_of_le_of_ne (List.sum_nonneg hnn) (Ne.symm hs)
  unfold group_avg
  rw [if_pos hs]
  constructor
  · rw [le_div_iff₀ hpos]
    simpa [mul_comm] using mul_sum_le_dot counts energy_bins m hlen hnn hm
  · rw [div_le_iff₀ hpos]
    simpa [mul_comm] using dot_le_mul_sum counts energy_bins M hlen hnn hM

/-- Witness for C9: counts `[2,1]`, bins `[10,20]`: the average `40/3`
lies within `[10, 20]`. -/
theorem group_avg_within_energy_bounds_witness :
    (10 : ℚ) ≤ group_avg [2, 1] (([2, 1] : List ℚ).sum) [10, 20]
      ∧ group_avg [2, 1] (([2, 1] : List ℚ).sum) [10, 20] ≤ 20 :=
  group_avg_within_energy_bounds [2, 1] [10, 20] 10 20 (by norm_num)
    (by intro x hx; simp at hx; rcases hx with rfl | rfl <;> norm_num)
    (by norm_num)
    (by intro x hx; simp at hx; rcases hx with rfl | rfl <;> norm_num)
    (by intro x hx; simp at hx; rcases hx with rfl | rfl <;> norm_num)

/-! ### Theorems about cumulative integration (`ti_counts`) -/

lemma sum_take_le_take_succ : ∀ (l : List ℚ), (∀ x ∈ l, 0 ≤ x) →
    ∀ m : ℕ, (l.take m).sum ≤ (l.take (m + 1)).sum
  | [], _, _ => by simp
  | x :: xs, h, 0 => by
      simpa using h x (by simp)
  | x :: xs, h, m + 1 => by
      simp only [List.take_succ_cons, List.sum_cons]
      exact add_le_add_left
        (sum_take_le_take_succ xs (fun y hy => h y (by simp [hy])) m) x

/-- **C4.** With non-negative per-step counts, the cumulative count over
`n` leading time bins produced by `time_integrate` (hence by every
entry of `get_cumulative`) is non-decreasing in `n`: for `n ≥ 2`,
`cumulative_counts[n] ≥ cumulative_counts[n-1]`. -/
theorem cumulative_counts_monotone (col : TimebinColumn) (n : ℕ)
    (hnn : ∀ x ∈ col.counts, 0 ≤ x) (h2 : 2 ≤ n) :
    ti_counts col (n - 1) ≤ ti_counts col n := by
  have h := sum_take_le_take_succ col.counts hnn (n - 1)
  have hn : n - 1 + 1 = n := by omega
  rw [hn] at h
  exact h

/-- Witness for C4: counts `[1,2]` at `n = 2`: `1 ≤ 3`. -/
theorem cumulative_counts_monotone_witness :
    ti_counts ⟨[1, 2], [5, 5]⟩ (2 - 1) ≤ ti_counts ⟨[1, 2], [5, 5]⟩ 2 :=
  cumulative_counts_monotone ⟨[1, 2], [5, 5]⟩ 2
    (by intro x hx; simp at hx; rcases hx with rfl | rfl <;> norm_num)
    (by norm_num)

/-! ### Lemmas about the aggregator (`get_group_counts`) -/

lemma npIadd_eq_ok (a v : List ℚ) (h : v.length = a.length) :
    npIadd a v = .ok (addVec a v) := by
  simp [npIadd, h, addVec]

lemma npIadd_ok_length {a v r : List ℚ} (h : npIadd a v = .ok r) :
    r.length = a.length := by
  unfold npIadd at h
  split at h
  next hv =>
    simp only [Except.ok.injEq] at h
    subst h
    simp [hv]
  next hv =>
    split at h
    next h1 =>
      simp only [Except.ok.injEq] at h
      subst h
      simp
    next h1 => cases h

lemma sumChannels_ok_length (d : Dict (List ℚ)) :
    ∀ (subs : List String) (counts r : List ℚ),
      sumChannels d counts subs = .ok r → r.length = counts.length
  | [], counts, r, h => by
      simp only [sumChannels, Except.ok.injEq] at h
      subst h; rfl
  | chan :: rest, counts, r, h => by
      simp only [sumChannels] at h
      cases hv : dictGet d chan with
      | error e => rw [hv, except_bind_error] at h; cases h
      | ok v =>
        rw [hv, except_bind_ok] at h
        cases ha : npIadd counts v with
        | error e => rw [ha, except_bind_error] at h; cases h
        | ok counts' =>
          rw [ha, except_bind_ok] at h
          rw [sumChannels_ok_length d rest counts' r h, npIadd_ok_length ha]

lemma sumChannels_eq_foldl (d : Dict (List ℚ)) (f : String → List ℚ) :
    ∀ (subs : List String) (counts : List ℚ),
      (∀ c ∈ subs, dictFind d c = some (f c) ∧ (f c).length = counts.length) →
      sumChannels d counts subs
        = .ok (subs.foldl (fun a c => addVec a (f c)) counts)
  | [], counts, _ => by simp [sumChannels]
  | chan :: rest, counts, h => by
      obtain ⟨hfind, hlen⟩ := h chan (by simp)
      have hget : dictGet d chan = .ok (f chan) := by simp [dictGet, hfind]
      simp only [sumChannels, hget, except_bind_ok]
      rw [npIadd_eq_ok counts (f chan) hlen, except_bind_ok]
      rw [sumChannels_eq_foldl d f rest (addVec counts (f chan)) (fun c hc => by
        obtain ⟨h1, h2⟩ := h c (by simp [hc])
        exact ⟨h1, by rw [h2, addVec_length, hlen, min_self]⟩)]
      simp [List.foldl_cons]

lemma groupsLoop_eq (d : Dict (List ℚ)) (n : ℕ) (f : String → List ℚ) :
    ∀ (groups : List (String × List String)) (gc : GroupCounts),
      gc.total.length = n →
      (∀ g ∈ groups, ∀ c ∈ g.2, dictFind d c = some (f c) ∧ (f c).length = n) →
      groupsLoop d n gc groups
        = .ok ⟨groups.foldl (fun t g => addVec t (sumVecs n (g.2.map f))) gc.total,
               gc.groups ++ groups.map (fun g => (g.1, sumVecs n (g.2.map f)))⟩
  | [], gc, _, _ => by simp [groupsLoop]
  | g :: rest, gc, hlen, h => by
      have hg := h g (by simp)
      have hS : sumChannels d (npZeros n) g.2
          = .ok (g.2.foldl (fun a c => addVec a (f c)) (npZeros n)) :=
        sumChannels_eq_foldl d f g.2 (npZeros n) (fun c hc => by
          obtain ⟨h1, h2⟩ := hg c hc
          exact ⟨h1, by simp [npZeros, h2]⟩)
      set S := g.2.foldl (fun a c => addVec a (f c)) (npZeros n) with hSdef
      have hSlen : S.length = n := by
        simpa [npZeros] using sumChannels_ok_length d g.2 (npZeros n) S hS
      have hSeq : S = sumVecs n (g.2.map f) := by
        rw [hSdef, sumVecs, List.foldl_map]
      simp only [groupsLoop, hS, except_bind_ok]
      rw [npIadd_eq_ok gc.total S (by rw [hSlen, hlen]), except_bind_ok]
      rw [groupsLoop_eq d n f rest ⟨addVec gc.total S, gc.groups ++ [(g.1, S)]⟩
        (by simp [addVec_length, hlen, hSlen])
        (fun g' hg' => h g' (by simp [hg']))]
      simp [hSeq, List.foldl_cons]

lemma foldl_addVec_eq (n : ℕ) :
    ∀ (l : List (List ℚ)) (t : List ℚ), t.length = n → (∀ v ∈ l, v.length = n) →
      l.foldl addVec t = addVec t (sumVecs n l)
  | [], t, ht, _ => by
      simp only [List.foldl_nil, sumVecs]
      rw [← ht]
      exact (addVec_zeros_right t).symm
  | v :: vs, t, ht, hl => by
      have hv : v.length = n := hl v (by simp)
      have hrest : ∀ x ∈ vs, x.length = n := fun x hx => hl x (by simp [hx])
      have h2 : sumVecs n (v :: vs) = addVec v (sumVecs n vs) := by
        rw [sumVecs, List.foldl_cons,
          show addVec (npZeros n) v = v from by rw [← hv]; exact addVec_zeros_left v]
        exact foldl_addVec_eq n vs v hv hrest
      rw [List.foldl_cons,
        foldl_addVec_eq n vs (addVec t v) (by simp [addVec_length, ht, hv]) hrest,
        h2, addVec_assoc]

lemma foldl_addVec_length (n : ℕ) :
    ∀ (vs : List (List ℚ)) (t : List ℚ), t.length = n → (∀ v ∈ vs, v.length = n) →
      (vs.foldl addVec t).length = n
  | [], t, ht, _ => by simpa using ht
  | v :: vs, t, ht, h => by
      rw [List.foldl_cons]
      exact foldl_addVec_length n vs (addVec t v)
        (by simp [addVec_length, ht, h v (by simp)])
        (fun x hx => h x (by simp [hx]))

lemma sumVecs_length (n : ℕ) (vs : List (List ℚ))
    (hvs : ∀ v ∈ vs, v.length = n) : (sumVecs n vs).length = n :=
  foldl_addVec_length n vs (npZeros n) (by simp [npZeros]) hvs

lemma get_all_channels_aux :
    ∀ (groups : List (String × List String)) (init : List String),
      groups.foldl (fun channels g => channels ++ g.2) init
        = init ++ (groups.map Prod.snd).flatten
  | [], init => by simp
  | g :: rest, init => by
      rw [List.foldl_cons, get_all_channels_aux rest (init ++ g.2)]
      simp

lemma get_all_channels_eq (groups : List (String × List String)) :
    get_all_channels groups = (groups.map Prod.snd).flatten := by
  rw [get_all_channels, get_all_channels_aux groups []]
  simp

lemma sumVecs_flatten (n : ℕ) :
    ∀ (L : List (List (List ℚ))) (t : List ℚ), t.length = n →
      (∀ l ∈ L, ∀ v ∈ l, v.length = n) →
      L.flatten.foldl addVec t = L.foldl (fun t l => addVec t (sumVecs n l)) t
  | [], _, _, _ => by simp
  | l :: L, t, ht, hL => by
      have hl : ∀ v ∈ l, v.length = n := hL l (by simp)
      have hsl : (sumVecs n l).length = n := sumVecs_length n l hl
      rw [List.flatten_cons, List.foldl_append, foldl_addVec_eq n l t ht hl,
        sumVecs_flatten n L (addVec t (sumVecs n l))
          (by simp [addVec_length, ht, hsl])
          (fun l' hl' => hL l' (by simp [hl'])),
        List.foldl_cons]

/-- **C1.** For every grouping and every channel-counts mapping that
supplies a vector of length `n_bins` for each listed channel (the
mapping's entries described by `f`), `get_group_counts` succeeds and
returns, for each named category in order, the element-wise sum of its
member channels' count vectors, and under `'total'` the element-wise
sum over all channels of all categories. -/
theorem get_group_counts_groupwise_and_total_sums
    (d : Dict (List ℚ)) (groups : List (String × List String)) (n : ℕ)
    (f : String → List ℚ)
    (hf : ∀ c ∈ get_all_channels groups,
      dictFind d c = some (f c) ∧ (f c).length = n) :
    get_group_counts d groups n
      = .ok ⟨sumVecs n ((get_all_channels groups).map f),
             groups.map (fun g => (g.1, sumVecs n (g.2.map f)))⟩ := by
  have hmem : ∀ g ∈ groups, ∀ c ∈ g.2,
      dictFind d c = some (f c) ∧ (f c).length = n := by
    intro g hg c hc
    refine hf c ?_
    rw [get_all_channels_eq]
    exact List.mem_flatten.mpr ⟨g.2, List.mem_map.mpr ⟨g, hg, rfl⟩, hc⟩
  unfold get_group_counts
  rw [groupsLoop_eq d n f groups ⟨npZeros n, []⟩ (by simp [npZeros]) hmem]
  have hchan : (get_all_channels groups).map f
      = (groups.map (fun g => g.2.map f)).flatten := by
    rw [get_all_channels_eq, List.map_flatten, List.map_map]
    rfl
  have htot :
      groups.foldl (fun t g => addVec t (sumVecs n (g.2.map f))) (npZeros n)
        = sumVecs n ((get_all_channels groups).map f) := by
    rw [hchan, sumVecs,
      sumVecs_flatten n (groups.map (fun g => g.2.map f)) (npZeros n)
        (by simp [npZeros])
        (fun l hl v hv => by
          obtain ⟨g, hg, rfl⟩ := List.mem_map.mp hl
          obtain ⟨c, hc, rfl⟩ := List.mem_map.mp hv
          exact (hmem g hg c hc).2),
      List.foldl_map]
  rw [htot]
  simp

/-- Witness for C1: two single-channel categories over 2 energy bins. -/
theorem get_group_counts_groupwise_and_total_sums_witness :
    get_group_counts [("ibd", [2, 1]), ("es", [1, 0])]
        [("IBD", ["ibd"]), ("ES", ["es"])] 2
      = .ok ⟨sumVecs 2 ((get_all_channels [("IBD", ["ibd"]), ("ES", ["es"])]).map
              (fun c => if c = "ibd" then [2, 1] else [1, 0])),
             [("IBD", ["ibd"]), ("ES", ["es"])].map
              (fun g => (g.1, sumVecs 2 (g.2.map
                (fun c => if c = "ibd" then [2, 1] else [1, 0]))))⟩ :=
  get_group_counts_groupwise_and_total_sums
    [("ibd", [2, 1]), ("es", [1, 0])] [("IBD", ["ibd"]), ("ES", ["es"])] 2
    (fun c => if c = "ibd" then [2, 1] else [1, 0])
    (by
      intro c hc
      have hch : get_all_channels [("IBD", ["ibd"]), ("ES", ["es"])]
          = ["ibd", "es"] := rfl
      rw [hch] at hc
      simp only [List.mem_cons, List.not_mem_nil, or_false] at hc
      rcases hc with rfl | rfl
      · exact ⟨by norm_num [dictFind], by norm_num⟩
      · exact ⟨by simp only [dictFind, String.reduceEq, reduceIte], by
          simp only [String.reduceEq, reduceIte]
          rfl⟩)

lemma groupsLoop_total_invariant (d : Dict (List ℚ)) (n : ℕ) :
    ∀ (groups : List (String × List String)) (gc gc' : GroupCounts),
      gc.total.length = n →
      gc.total = sumVecs n (gc.groups.map Prod.snd) →
      groupsLoop d n gc groups = .ok gc' →
      gc'.total = sumVecs n (gc'.groups.map Prod.snd)
  | [], gc, gc', _, hinv, h => by
      simp only [groupsLoop, Except.ok.injEq] at h
      subst h; exact hinv
  | g :: rest, gc, gc', hlen, hinv, h => by
      simp only [groupsLoop] at h
      cases hS : sumChannels d (npZeros n) g.2 with
      | error e => rw [hS, except_bind_error] at h; cases h
      | ok S =>
        rw [hS, except_bind_ok] at h
        have hSlen : S.length = n := by
          simpa [npZeros] using sumChannels_ok_length d g.2 (npZeros n) S hS
        rw [npIadd_eq_ok gc.total S (by rw [hSlen, hlen]), except_bind_ok] at h
        refine groupsLoop_total_invariant d n rest
          ⟨addVec gc.total S, gc.groups ++ [(g.1, S)]⟩ gc'
          (by simp [addVec_length, hlen, hSlen]) ?_ h
        show addVec gc.total S
          = sumVecs n ((gc.groups ++ [(g.1, S)]).map Prod.snd)
        rw [List.map_append, sumVecs, List.foldl_append]
        simp only [List.map_cons, List.map_nil, List.foldl_cons, List.foldl_nil]
        rw [← sumVecs, ← hinv]

/-- **C10.** Whenever `get_group_counts` returns (with no disjointness
assumption on the categories: the grouping may list a channel under
several categories), the `'total'` array equals the element-wise sum of
the returned named-category arrays. -/
theorem get_group_counts_total_eq_sum_of_groups
    (d : Dict (List ℚ)) (groups : List (String × List String)) (n : ℕ)
    (gc : GroupCounts) (h : get_group_counts d groups n = .ok gc) :
    gc.total = sumVecs n (gc.groups.map Prod.snd) :=
  groupsLoop_total_invariant d n groups ⟨npZeros n, []⟩ gc
    (by simp [npZeros]) (by simp [sumVecs]) h

/-- Witness for C10: a channel listed under two categories is counted
twice in `'total'` (`[3]` per category, `[6]` in total), and the
identity `total = sum of category arrays` holds. -/
theorem get_group_counts_total_eq_sum_of_groups_witness :
    get_group_counts [("ibd", [3])] [("g1", ["ibd"]), ("g2", ["ibd"])] 1
        = .ok ⟨[6], [("g1", [3]), ("g2", [3])]⟩
      ∧ ([6] : List ℚ)
        = sumVecs 1 (([("g1", ([3] : List ℚ)), ("g2", [3])]).map Prod.snd) := by
  have h : get_group_counts [("ibd", [3])] [("g1", ["ibd"]), ("g2", ["ibd"])] 1
      = .ok ⟨[6], [("g1", [3]), ("g2", [3])]⟩ := by
    norm_num [get_group_counts, groupsLoop, sumChannels, dictGet, dictFind,
      npIadd, npZeros, Bind.bind, Except.bind, String.reduceEq]
  exact ⟨h, get_group_counts_total_eq_sum_of_groups _ _ _ _ h⟩

/-- **C5, counterexample.** A grouping that lists channel `"ibd"` under
two categories is not rejected: `get_all_channels` (the only processing
the grouping configuration receives, analysis.py:78-85) returns the
concatenation with the duplicate, no error of any kind is raised, and
aggregation then runs to completion on it. -/
theorem duplicate_channel_accepted_counterexample :
    get_all_channels [("g1", ["ibd"]), ("g2", ["ibd"])] = ["ibd", "ibd"]
      ∧ get_group_counts [("ibd", [3])] [("g1", ["ibd"]), ("g2", ["ibd"])] 1
        = .ok ⟨[6], [("g1", [3]), ("g2", [3])]⟩ := by
  constructor
  · rfl
  · norm_num [get_group_counts, groupsLoop, sumChannels, dictGet, dictFind,
      npIadd, npZeros, Bind.bind, Except.bind, String.reduceEq]

/-- **C5, amended.** No duplicate validation exists: `get_all_channels`
just concatenates every category's channel list, duplicates included. -/
theorem get_all_channels_no_validation (groups : List (String × List String)) :
    get_all_channels groups = (groups.map Prod.snd).flatten :=
  get_all_channels_eq groups

lemma dictGet_none {d : Dict (List ℚ)} {k : String}
    (h : dictFind d k = none) : dictGet d k = .error (.keyError k) := by
  simp [dictGet, h]

lemma dictGet_some {d : Dict (List ℚ)} {k : String} {v : List ℚ}
    (h : dictFind d k = some v) : dictGet d k = .ok v := by
  simp [dictGet, h]

lemma sumChannels_isOk (d : Dict (List ℚ)) (n : ℕ) :
    ∀ (subs : List String) (counts : List ℚ), counts.length = n →
      ((∃ r, sumChannels d counts subs = .ok r)
        ↔ ∀ c ∈ subs, ∃ v, dictFind d c = some v
            ∧ (v.length = n ∨ v.length = 1))
  | [], counts, _ => by simp [sumChannels]
  | chan :: rest, counts, hlen => by
      cases hv : dictFind d chan with
      | none =>
        simp only [sumChannels, dictGet_none hv, except_bind_error]
        constructor
        · rintro ⟨r, hr⟩; cases hr
        · intro h
          obtain ⟨v, hfind, -⟩ := h chan (by simp)
          rw [hv] at hfind; cases hfind
      | some v =>
        simp only [sumChannels, dictGet_some hv, except_bind_ok]
        by_cases h1 : v.length = counts.length
        · rw [npIadd_eq_ok counts v h1]
          simp only [except_bind_ok]
          rw [sumChannels_isOk d n rest (addVec counts v)
            (by rw [addVec_length, h1, min_self, hlen])]
          constructor
          · intro h c hc
            rcases List.mem_cons.mp hc with rfl | hc
            · exact ⟨v, hv, Or.inl (by rw [h1, hlen])⟩
            · exact h c hc
          · intro h c hc
            exact h c (by simp [hc])
        · by_cases h2 : v.length = 1
          · have ha : npIadd counts v = .ok (counts.map (· + v.headI)) := by
              unfold npIadd
              rw [if_neg h1, if_pos h2]
            rw [ha]
            simp only [except_bind_ok]
            rw [sumChannels_isOk d n rest (counts.map (· + v.headI))
              (by rw [List.length_map, hlen])]
            constructor
            · intro h c hc
              rcases List.mem_cons.mp hc with rfl | hc
              · exact ⟨v, hv, Or.inr h2⟩
              · exact h c hc
            · intro h c hc
              exact h c (by simp [hc])
          · have ha : npIadd counts v = .error .valueError := by
              unfold npIadd
              rw [if_neg h1, if_neg h2]
            rw [ha]
            simp only [except_bind_error]
            constructor
            · rintro ⟨r, hr⟩; cases hr
            · intro h
              obtain ⟨v', hfind, hl⟩ := h chan (by simp)
              rw [hv] at hfind
              cases hfind
              rw [hlen] at h1
              exact absurd hl (by simp [h1, h2])

lemma groupsLoop_isOk (d : Dict (List ℚ)) (n : ℕ) :
    ∀ (groups : List (String × List String)) (gc : GroupCounts),
      gc.total.length = n →
      ((∃ r, groupsLoop d n gc groups = .ok r)
        ↔ ∀ g ∈ groups, ∀ c ∈ g.2, ∃ v, dictFind d c = some v
            ∧ (v.length = n ∨ v.length = 1))
  | [], gc, _ => by simp [groupsLoop]
  | g :: rest, gc, hlen => by
      cases hS : sumChannels d (npZeros n) g.2 with
      | error e =>
        simp only [groupsLoop, hS, except_bind_error]
        constructor
        · rintro ⟨r, hr⟩; cases hr
        · intro h
          obtain ⟨r, hr⟩ := (sumChannels_isOk d n g.2 (npZeros n)
            (by simp [npZeros])).mpr (h g (by simp))
          rw [hS] at hr; cases hr
      | ok S =>
        have hSlen : S.length = n := by
          simpa [npZeros] using sumChannels_ok_length d g.2 (npZeros n) S hS
        have hg : ∀ c ∈ g.2, ∃ v, dictFind d c = some v
            ∧ (v.length = n ∨ v.length = 1) :=
          (sumChannels_isOk d n g.2 (npZeros n) (by simp [npZeros])).mp ⟨S, hS⟩
        simp only [groupsLoop, hS, except_bind_ok,
          npIadd_eq_ok gc.total S (by rw [hSlen, hlen])]
        rw [groupsLoop_isOk d n rest ⟨addVec gc.total S, gc.groups ++ [(g.1, S)]⟩
          (by simp [addVec_length, hlen, hSlen])]
        constructor
        · intro h g' hg'
          rcases List.mem_cons.mp hg' with rfl | hg'
          · exact hg
          · exact h g' hg'
        · intro h g' hg'
          exact h g' (by simp [hg'])

/-- **C8, amended.** The aggregator returns normally exactly when every
channel listed in the grouping has an entry in the counts mapping whose
vector length equals `n_bins` or equals `1` — a length-1 vector is
silently broadcast across the bins rather than rejected.  Otherwise it
raises a plain Python error: `KeyError` for a missing entry,
`ValueError` for a numpy broadcast failure (the repository defines no
`DataShapeError` or `MissingDataError`). -/
theorem get_group_counts_success_iff :
    (∀ (d : Dict (List ℚ)) (groups : List (String × List String)) (n : ℕ),
      (∃ gc, get_group_counts d groups n = .ok gc)
        ↔ ∀ c ∈ get_all_channels groups,
            ∃ v, dictFind d c = some v ∧ (v.length = n ∨ v.length = 1))
    ∧ get_group_counts [("a", [1, 2])] [("g", ["a", "b"])] 2
        = .error (.keyError "b")
    ∧ get_group_counts [("a", [1, 2]), ("b", [5, 6, 7])] [("g", ["a", "b"])] 2
        = .error .valueError := by
  refine ⟨?_, ?_, ?_⟩
  · intro d groups n
    unfold get_group_counts
    rw [groupsLoop_isOk d n groups ⟨npZeros n, []⟩ (by simp [npZeros]),
      get_all_channels_eq]
    constructor
    · intro h c hc
      obtain ⟨l, hl, hcl⟩ := List.mem_flatten.mp hc
      obtain ⟨g, hg, rfl⟩ := List.mem_map.mp hl
      exact h g hg c hcl
    · intro h g hg c hc
      exact h c (List.mem_flatten.mpr ⟨g.2, List.mem_map.mpr ⟨g, hg, rfl⟩, hc⟩)
  · simp only [get_group_counts, groupsLoop, sumChannels, dictGet, dictFind,
      npIadd, npZeros, Bind.bind, Except.bind, String.reduceEq, reduceIte,
      List.length_cons, List.length_nil, List.length_replicate]
  · simp only [get_group_counts, groupsLoop, sumChannels, dictGet, dictFind,
      npIadd, npZeros, Bind.bind, Except.bind, String.reduceEq, reduceIte,
      List.length_cons, List.length_nil, List.length_replicate]
    norm_num [List.length_zipWith, List.replicate, List.zipWith]

/-- **C8, counterexample.** Two supplied vectors of different lengths
(`[1,2]` and `[5]`) do NOT make the aggregator raise: numpy broadcasts
the length-1 vector across both bins and `get_group_counts` returns
normally. -/
theorem mismatched_lengths_broadcast_counterexample :
    get_group_counts [("a", [1, 2]), ("b", [5])] [("g", ["a", "b"])] 2
      = .ok ⟨[6, 7], [("g", [6, 7])]⟩ := by
  simp only [get_group_counts, groupsLoop, sumChannels, dictGet, dictFind,
    npIadd, npZeros, Bind.bind, Except.bind, String.reduceEq, reduceIte,
    List.length_cons, List.length_nil, List.length_replicate]
  norm_num [List.replicate, List.zipWith]

/-! ### Cumulative integration: running-accumulator equivalence -/

lemma runningCount_eq : ∀ (c : List ℚ) (n : ℕ),
    runningCount c n = (c.take n).sum
  | _, 0 => by simp [runningCount]
  | [], _ + 1 => by simp [runningCount]
  | x :: xs, n + 1 => by
      simp [runningCount, runningCount_eq xs n, List.take_succ_cons]

lemma runningEnergySum_eq : ∀ (e c : List ℚ) (n : ℕ),
    runningEnergySum e c n
      = (List.zipWith (· * ·) (e.take n) (c.take n)).sum
  | _, _, 0 => by simp [runningEnergySum]
  | [], _, _ + 1 => by simp [runningEnergySum]
  | _ :: _, [], _ + 1 => by simp [runningEnergySum]
  | x :: xs, y :: ys, n + 1 => by
      simp [runningEnergySum, runningEnergySum_eq xs ys n, List.take_succ_cons]

/-- The `isel(time=slice(0, n))` slice inside `time_integrate` clamps
silently: integrating over `n` bins beyond the available rows gives
exactly the full-length integral. -/
lemma ti_clamps_to_length (col : TimebinColumn) (n : ℕ)
    (h : col.counts.length ≤ n) :
    ti_counts col n = ti_counts col col.counts.length
      ∧ ti_energy col n = ti_energy col col.counts.length := by
  have hc : col.counts.take n = col.counts := List.take_of_length_le h
  have hc' : col.counts.take col.counts.length = col.counts :=
    List.take_length col.counts
  have hz1 : (List.zipWith (· * ·) col.energy col.counts).length ≤ n := by
    rw [List.length_zipWith]
    exact le_trans (min_le_right _ _) h
  have hz2 : (List.zipWith (· * ·) col.energy col.counts).length
      ≤ col.counts.length := by
    rw [List.length_zipWith]
    exact min_le_right _ _
  constructor
  · rw [ti_counts, ti_counts, hc, hc']
  · simp only [ti_energy]
    rw [← List.take_zipWith, ← List.take_zipWith,
      List.take_of_length_le hz1, List.take_of_length_le hz2, hc, hc']

/-- **C3, counterexample.** A series whose single row has zero counts:
the claim promises a cumulative entry for `n = 1` (the series length)
with mean energy exactly `0`.  The code never produces that entry at
all — for a 1-row series every call of `get_cumulative` raises
`ValueError` (`max_n_bins = 0` from the empty `xr.concat`, any other
`max_n_bins` from the time-coordinate size check) — and the underlying
`time_integrate` value for that bin divides by the zero count with no
guard, giving `nan`, not the number `0`. -/
theorem cumulative_zero_count_energy_counterexample :
    get_cumulative ⟨[0], [10]⟩ 1 = .error .valueError
      ∧ get_cumulative ⟨[0], [10]⟩ 0 = .error .valueError
      ∧ ti_counts ⟨[0], [10]⟩ 1 = 0
      ∧ ti_energy ⟨[0], [10]⟩ 1 = none := by
    refine ⟨?_, ?_, ?_, ?_⟩ <;> norm_num [get_cumulative, ti_counts, ti_energy]

/-- **C3, amended.** `get_cumulative` returns a table only when
`max_n_bins` equals the model's row count minus one (the final
time-coordinate assignment raises `ValueError` for every other value).
In such a call, the entry for `n` bins (`1 ≤ n ≤ max_n_bins`) holds
the running count over the first `n` rows and the running
energy-weighted sum divided by the running count when that count is
nonzero; when the running count is zero the unguarded division yields
an undefined float (`none`), not `0`.  The final conjunct: at the full
length the running count is the whole-series sum (realised by
`time_integrate`, though no returned entry reaches the full length). -/
theorem get_cumulative_running_accumulators (col : TimebinColumn)
    (max_n_bins n : ℕ) (hmax : col.counts.length - 1 = max_n_bins)
    (h1 : 1 ≤ n) (h2 : n ≤ max_n_bins) :
    (∃ table, get_cumulative col max_n_bins = .ok table
      ∧ table[n - 1]?
        = some (runningCount col.counts n,
            if runningCount col.counts n = 0 then none
            else some (runningEnergySum col.energy col.counts n
              / runningCount col.counts n)))
    ∧ runningCount col.counts col.counts.length = col.counts.sum := by
  constructor
  · refine ⟨(List.range max_n_bins).map
        (fun i => (ti_counts col (i + 1), ti_energy col (i + 1))), ?_, ?_⟩
    · rw [get_cumulative, if_neg (by omega), if_pos hmax]
    · rw [List.getElem?_map, List.getElem?_range (by omega)]
      have hn : n - 1 + 1 = n := by omega
      simp only [Option.map_some', hn]
      simp only [ti_counts, ti_energy, runningCount_eq, runningEnergySum_eq]
  · rw [runningCount_eq, List.take_length]

/-- Witness for amended C3: counts `[3, 0]`, per-step energies
`[40/3, 0]` (the spec's scenario A output): the only admissible request
is `max_n_bins = 1`, whose entry for `n = 1` holds count `3` and mean
energy `40/3`, and the full-length running count equals the series
sum. -/
theorem get_cumulative_running_accumulators_witness :
    (∃ table, get_cumulative ⟨[3, 0], [40 / 3, 0]⟩ 1 = .ok table
      ∧ table[1 - 1]?
        = some (runningCount [3, 0] 1,
            if runningCount [3, 0] 1 = 0 then none
            else some (runningEnergySum [40 / 3, 0] [3, 0] 1
              / runningCount [3, 0] 1)))
    ∧ runningCount ([3, 0] : List ℚ) (([3, 0] : List ℚ).length)
        = ([3, 0] : List ℚ).sum :=
  get_cumulative_running_accumulators ⟨[3, 0], [40 / 3, 0]⟩ 1 1
    (by norm_num) (by norm_num) (by norm_num)

/-- **C6, counterexample.** The error raised for `max_n_bins` beyond
the rows is not a range check: a 1-row model at `max_n_bins = 2` raises
`ValueError` — but so does the in-range request `max_n_bins = rows`
(second conjunct, 2 rows), because the time-coordinate assignment
rejects every `max_n_bins ≠ rows - 1`; only `rows - 1` succeeds (third
conjunct).  The slices themselves clamp silently (last conjuncts): the
out-of-range `time_integrate` equals the full-length one, so there is
no out-of-range detection, and no `RangeError` type exists. -/
theorem max_bins_beyond_length_counterexample :
    get_cumulative ⟨[5], [10]⟩ 2 = .error .valueError
      ∧ get_cumulative ⟨[5, 7], [10, 20]⟩ 2 = .error .valueError
      ∧ get_cumulative ⟨[5, 7], [10, 20]⟩ 1 = .ok [(5, some 10)]
      ∧ ti_counts ⟨[5], [10]⟩ 2 = ti_counts ⟨[5], [10]⟩ 1
      ∧ ti_energy ⟨[5], [10]⟩ 2 = ti_energy ⟨[5], [10]⟩ 1 := by
  refine ⟨?_, ?_, ?_, ?_, ?_⟩ <;>
    norm_num [get_cumulative, ti_counts, ti_energy, List.range_succ]

/-- **C6, amended.** Requesting cumulative integration with
`max_n_bins` greater than the model's row count raises `ValueError`,
not `RangeError` (which does not exist in the repository): the
integration slices clamp silently to the available rows — the
out-of-range integral equals the full-length one — and the error comes
from the final time-coordinate assignment, which rejects every
`max_n_bins` other than `rows - 1`, in-range requests included. -/
theorem get_cumulative_beyond_rows_value_error (col : TimebinColumn)
    (max_n_bins : ℕ) (h : col.counts.length < max_n_bins) :
    get_cumulative col max_n_bins = .error .valueError
      ∧ ti_counts col max_n_bins = ti_counts col col.counts.length
      ∧ ti_energy col max_n_bins = ti_energy col col.counts.length := by
  have hclamp := ti_clamps_to_length col max_n_bins (le_of_lt h)
  refine ⟨?_, hclamp.1, hclamp.2⟩
  rw [get_cumulative, if_neg (by omega), if_neg (by omega)]

/-- Witness for amended C6: a 1-row model requested at
`max_n_bins = 2`. -/
theorem get_cumulative_beyond_rows_value_error_witness :
    get_cumulative ⟨[5], [10]⟩ 2 = .error .valueError
      ∧ ti_counts ⟨[5], [10]⟩ 2 = ti_counts ⟨[5], [10]⟩ ([(5 : ℚ)].length)
      ∧ ti_energy ⟨[5], [10]⟩ 2 = ti_energy ⟨[5], [10]⟩ ([(5 : ℚ)].length) :=
  get_cumulative_beyond_rows_value_error ⟨[5], [10]⟩ 2 (by norm_num)

/-! ### Channel fractions -/

lemma zipFloatDiv_all_isSome : ∀ (cc ct : List ℚ), cc.length = ct.length →
    (((List.zipWith floatDiv cc ct).all (fun x => x.isSome)) = true
      ↔ ∀ t ∈ ct, t ≠ 0)
  | [], [], _ => by simp
  | _ :: _, [], h => by simp at h
  | [], _ :: _, h => by simp at h
  | c :: cs, t :: ts, h => by
      simp only [List.zipWith_cons_cons, List.all_cons, Bool.and_eq_true,
        List.mem_cons]
      rw [zipFloatDiv_all_isSome cs ts (by simpa using h)]
      constructor
      · rintro ⟨h1, h2⟩ x hx
        rcases hx with rfl | hx
        · intro h0
          rw [floatDiv, if_pos h0] at h1
          simp at h1
        · exact h2 x hx
      · intro hx
        refine ⟨?_, fun x hxx => hx x (Or.inr hxx)⟩
        rw [floatDiv, if_neg (hx t (Or.inl rfl))]
        rfl

lemma zipFloatDiv_map_getD : ∀ (cc ct : List ℚ), (∀ t ∈ ct, t ≠ 0) →
    (List.zipWith floatDiv cc ct).map (fun x => x.getD 0)
      = List.zipWith (· / ·) cc ct
  | [], _, _ => by simp
  | _ :: _, [], _ => by simp
  | c :: cs, t :: ts, h => by
      simp only [List.zipWith_cons_cons, List.map_cons]
      rw [floatDiv, if_neg (h t (by simp))]
      rw [zipFloatDiv_map_getD cs ts (fun x hx => h x (by simp [hx]))]
      rfl

/-- **C7, counterexample.** With totals `[1, 0]` the spec-side average
over the nonzero-total steps is `1`, but the code takes `np.mean` over
ALL steps, so the zero-total step's non-finite ratio poisons the mean
(`none`); and with every total zero the spec-side value is `0` while
the code again returns a non-finite value, not `0`. -/
theorem channel_fractions_zero_total_counterexample :
    get_channel_fractions [1, 1] [1, 0] = none
      ∧ spec_channel_fraction [1, 1] [1, 0] = 1
      ∧ get_channel_fractions [1] [0] = none
      ∧ spec_channel_fraction [1] [0] = 0 := by
  refine ⟨?_, ?_, ?_, ?_⟩ <;>
    norm_num [get_channel_fractions, npMean, floatDiv, spec_channel_fraction,
      List.filterMap_cons]

/-- **C7, amended.** `get_channel_fractions` averages the per-step
ratio over ALL time steps: when every step's total is nonzero it
returns the mean of `category/total` over the whole series, and as soon
as one step has zero total the result is an undefined float
(`nan`/`inf`, here `none`) — zero-total steps are not excluded, and an
all-zero series does not yield `0`. -/
theorem get_channel_fractions_means_over_all_steps (cc ct : List ℚ)
    (hne : cc ≠ []) (hlen : cc.length = ct.length) :
    ((∀ t ∈ ct, t ≠ 0) →
      get_channel_fractions cc ct
        = some ((List.zipWith (· / ·) cc ct).sum / (ct.length : ℚ)))
    ∧ ((∃ t ∈ ct, t = 0) → get_channel_fractions cc ct = none) := by
  have hzlen : (List.zipWith floatDiv cc ct).length = ct.length := by
    rw [List.length_zipWith, hlen, min_self]
  have hznil : List.zipWith floatDiv cc ct ≠ [] := by
    intro h0
    apply hne
    have hl := congrArg List.length h0
    rw [hzlen] at hl
    simp only [List.length_nil] at hl
    rw [hl] at hlen
    exact List.length_eq_zero.mp hlen
  constructor
  · intro hall
    rw [get_channel_fractions, npMean, if_neg hznil,
      if_pos ((zipFloatDiv_all_isSome cc ct hlen).mpr hall),
      zipFloatDiv_map_getD cc ct hall, hzlen]
  · rintro ⟨t, ht, rfl⟩
    rw [get_channel_fractions, npMean, if_neg hznil, if_neg]
    intro hall
    exact (zipFloatDiv_all_isSome cc ct hlen).mp hall 0 ht rfl

/-- Witness for amended C7: a series with totals `[2, 4]` (never zero)
gives the plain mean `(1/2 + 3/4) / 2 = 5/8`. -/
theorem get_channel_fractions_means_over_all_steps_witness :
    get_channel_fractions [1, 3] [2, 4]
      = some ((List.zipWith (· / ·) ([1, 3] : List ℚ) [2, 4]).sum
          / (([2, 4] : List ℚ).length : ℚ)) :=
  (get_channel_fractions_means_over_all_steps [1, 3] [2, 4]
    (by simp) (by norm_num)).1
    (by intro t ht; simp at ht; rcases ht with rfl | rfl <;> norm_num)

end Snowflash
